import Mathlib

/-!
Verification of the log-structured key/value engine in `src/kvstore/log_kv.py`
(`LogStructuredKV`).

The embedding models the engine state visible to the Python object:
the directory of log files (each file a list of byte values), the in-memory
index (`key bytes -> (filename, offset, record size)`), the reserved active
filename, and the configured `max_active_size`.  File contents are lists of
natural numbers; real files only ever hold values below 256, which appears as
an explicit hypothesis where a theorem needs it.  `struct.pack(">IIB", ...)`
is modelled with the lengths reduced mod 2^32 (Python raises on overflow
instead; theorems about decoding carry `< 2^32` hypotheses that make the two
agree).  Raised exceptions are modelled as an explicit `error`/`none` result.
-/

namespace LogKV

/-- One byte of `struct.pack(">I", n)`: big-endian 4-byte encoding. -/
def u32be (n : Nat) : List Nat :=
  [n / 16777216 % 256, n / 65536 % 256, n / 256 % 256, n % 256]

/-- `struct.unpack(">I", ...)` of the first four bytes (callers guard the
length; the fallback for shorter input is never reached under those guards). -/
def unpackU32 : List Nat → Nat
  | a :: b :: c :: d :: _ => a * 16777216 + b * 65536 + c * 256 + d
  | _ => 0

/-- `struct.pack(HEADER_FORMAT, key_len, val_len, tomb)` with
`HEADER_FORMAT = ">IIB"`; `HEADER_SIZE = 9`. -/
def packHeader (keyLen valLen tomb : Nat) : List Nat :=
  u32be keyLen ++ u32be valLen ++ [tomb % 256]

/-- `f.seek(off); f.read(n)`: reading past the end returns the bytes that are
there (possibly fewer than `n`), exactly like Python file reads. -/
def readBytes (f : List Nat) (off n : Nat) : List Nat :=
  (f.drop off).take n

/-- The names the engine ever creates in its directory: the reserved
`"active.log"` and the sealed `"segment-%05d.log"` names. -/
inductive FName where
  | active
  | segment (n : Nat)
deriving DecidableEq

/-- Python's `sorted()` order on the rendered filenames: `"active.log"`
sorts before every `"segment-..."` name (`'a' < 's'`), and zero-padded
segment names sort by their number (faithful for numbers below 100000,
i.e. while the `%05d` rendering keeps a fixed width). -/
def FName.leB : FName → FName → Bool
  | .active, _ => true
  | .segment _, .active => false
  | .segment m, .segment n => m ≤ n

def insSorted (x : FName) : List FName → List FName
  | [] => [x]
  | y :: t => if FName.leB x y then x :: y :: t else y :: insSorted x t

/-- `sorted(names)`. -/
def sortFNames (l : List FName) : List FName := l.foldr insSorted []

/-- Association-list lookup: Python `dict.get` / opening a file by name. -/
def alookup {α β : Type} [DecidableEq α] : List (α × β) → α → Option β
  | [], _ => none
  | p :: t, k => if p.1 = k then some p.2 else alookup t k

/-- Association-list store: Python `d[k] = v` (replace in place, else append —
the insertion-order behaviour of `dict`). -/
def ainsert {α β : Type} [DecidableEq α] : List (α × β) → α → β → List (α × β)
  | [], k, v => [(k, v)]
  | p :: t, k, v => if p.1 = k then (p.1, v) :: t else p :: ainsert t k v

/-- Association-list removal: Python `d.pop(k, None)` (keys are unique in a
`dict`, so removing the first occurrence is removal). -/
def aerase {α β : Type} [DecidableEq α] : List (α × β) → α → List (α × β)
  | [], _ => []
  | p :: t, k => if p.1 = k then t else p :: aerase t k

/-- An index entry: `(filename, offset, record_size)`. -/
structure Entry where
  fname : FName
  offset : Nat
  size : Nat
deriving DecidableEq

/-- The directory: filename to file contents. -/
abbrev FS := List (FName × List Nat)

/-- `self.index : Dict[bytes, Tuple[str, int, int]]`. -/
abbrev Index := List (List Nat × Entry)

/-- The engine state of a `LogStructuredKV` object (plus its directory). -/
structure KV where
  files : FS
  index : Index
  activeFilename : FName
  maxActiveSize : Nat
deriving DecidableEq

/-- Size/content of the file behind `self.active_file`. -/
def activeContent (s : KV) : List Nat :=
  (alookup s.files s.activeFilename).getD []

/-- `LogStructuredKV._next_segment_name`: one more than the largest existing
`segment-*.log` number, or 1 when none exist. -/
def nextSegmentNum (fs : FS) : Nat :=
  (fs.filterMap fun p => match p.1 with | .segment n => some n | .active => none).foldl
    Nat.max 0 + 1

def nextSegmentName (fs : FS) : FName := .segment (nextSegmentNum fs)

/-- Append bytes to the active file (`self.active_file.write(...)` followed by
`flush`; the file is open in append mode). -/
def writeActive (s : KV) (bs : List Nat) : KV :=
  { s with files := ainsert s.files s.activeFilename (activeContent s ++ bs) }

/-- `LogStructuredKV._rotate_active_if_needed` in the Open state (the
`active_file is None` branch only arises after `close`, outside the lifecycle
the spec allows).  On rotation the active file is renamed to the next sealed
name and a fresh active file is opened with mode `"ab"`, which creates the
file only when it is missing. -/
def rotateIfNeeded (s : KV) (keyLen valLen : Nat) : KV :=
  let size := (activeContent s).length
  if s.maxActiveSize < size + 9 + keyLen + valLen then
    let segName := nextSegmentName s.files
    let fs2 := ainsert (aerase s.files s.activeFilename) segName (activeContent s)
    let fs3 := match alookup fs2 s.activeFilename with
      | some _ => fs2
      | none => ainsert fs2 s.activeFilename []
    { s with files := fs3 }
  else s

/-- `LogStructuredKV.set` (keys and values already encoded to bytes). -/
def set (s : KV) (k v : List Nat) : KV :=
  let s1 := rotateIfNeeded s k.length v.length
  let offset := (activeContent s1).length
  let s2 := writeActive s1 (packHeader k.length v.length 0 ++ k ++ v)
  { s2 with index := ainsert s2.index k ⟨s2.activeFilename, offset, 9 + k.length + v.length⟩ }

/-- Result of `LogStructuredKV.get`: a value, Python's `None`, or a raised
exception (`struct.error` on a short header read / `FileNotFoundError`). -/
inductive GetResult where
  | found (v : List Nat)
  | notFound
  | error
deriving DecidableEq

/-- `LogStructuredKV.get`. -/
def get (s : KV) (k : List Nat) : GetResult :=
  match alookup s.index k with
  | none => .notFound
  | some e =>
    match alookup s.files e.fname with
    | none => .error
    | some f =>
      if f.length < e.offset + 9 then .error
      else
        let hd := readBytes f e.offset 9
        let keyLen := unpackU32 hd
        let valLen := unpackU32 (hd.drop 4)
        let tomb := hd.getD 8 0
        if tomb = 1 then .notFound
        else .found (readBytes f (e.offset + 9 + keyLen) valLen)

/-- `LogStructuredKV.delete`: unconditionally append a tombstone record, then
drop the key from the index.  (The source's `if k not in self.index: pass`
is a no-op and is omitted.) -/
def delete (s : KV) (k : List Nat) : KV :=
  let s1 := rotateIfNeeded s k.length 0
  let s2 := writeActive s1 (packHeader k.length 0 1 ++ k)
  { s2 with index := aerase s2.index k }

/-- The loop body of `LogStructuredKV._rebuild_index`, with explicit fuel
(each iteration consumes at least 9 bytes, so `f.length + 1` steps always
suffice).  A header shorter than 9 bytes ends the file; otherwise the key is
read (possibly truncated at end of file, exactly as `f.read(key_len)`
returns fewer bytes) and the record is applied to the index. -/
def replayGo (fname : FName) (f : List Nat) : Nat → Index → Nat → Index
  | 0, idx, _ => idx
  | fuel + 1, idx, offset =>
    if f.length < offset + 9 then idx
    else
      let hd := readBytes f offset 9
      let keyLen := unpackU32 hd
      let valLen := unpackU32 (hd.drop 4)
      let tomb := hd.getD 8 0
      let k := readBytes f (offset + 9) keyLen
      let idx2 := if tomb = 1 then aerase idx k
        else ainsert idx k ⟨fname, offset, 9 + keyLen + valLen⟩
      replayGo fname f fuel idx2 (offset + (9 + keyLen + valLen))

/-- Replay one segment file from offset 0. -/
def replayFile (fname : FName) (f : List Nat) (idx : Index) : Index :=
  replayGo fname f (f.length + 1) idx 0

/-- `LogStructuredKV._rebuild_index`: replay every `*.log` file in `sorted()`
filename order, starting from the empty index of a freshly opened engine. -/
def rebuildIndex (fs : FS) : Index :=
  (sortFNames (fs.map Prod.fst)).foldl
    (fun idx fname =>
      match alookup fs fname with
      | some f => replayFile fname f idx
      | none => idx) []

/-- `LogStructuredKV.__init__` on an existing directory: `_open_or_create`
(mode `"ab+"` creates the active file only when missing), then
`_rebuild_index`. -/
def openStore (fs : FS) (maxA : Nat) : KV :=
  let fs2 := match alookup fs FName.active with
    | some _ => fs
    | none => ainsert fs FName.active []
  { files := fs2, index := rebuildIndex fs2,
    activeFilename := FName.active, maxActiveSize := maxA }

/-- `LogStructuredKV(dirpath)` on an empty directory. -/
def openFresh (maxA : Nat) : KV := openStore [] maxA

/-- `LogStructuredKV.close` only releases the OS file handle; the persisted
state this model tracks is unchanged. -/
def close (s : KV) : KV := s

/-- Close the engine and construct a new `LogStructuredKV` on the same
directory. -/
def reopen (s : KV) : KV := openStore (close s).files s.maxActiveSize

/-- One read-back of `LogStructuredKV.compact`'s inner loop: open the entry's
file, read and unpack the header (a short read raises `struct.error`,
modelled as `none`), and return the tombstone byte together with the value
bytes `in_f.read(val_len)`. -/
def readEntry (fs : FS) (e : Entry) : Option (Nat × List Nat) :=
  match alookup fs e.fname with
  | none => none
  | some f =>
    if f.length < e.offset + 9 then none
    else
      let hd := readBytes f e.offset 9
      some (hd.getD 8 0, readBytes f (e.offset + 9 + unpackU32 hd) (unpackU32 (hd.drop 4)))

/-- The value bytes the compaction read-back (and `get`) would produce for an
entry; total companion of `readEntry`. -/
def entryVal (fs : FS) (e : Entry) : List Nat :=
  match alookup fs e.fname with
  | none => []
  | some f =>
    let hd := readBytes f e.offset 9
    readBytes f (e.offset + 9 + unpackU32 hd) (unpackU32 (hd.drop 4))

/-- The per-entry loop of `LogStructuredKV.compact`: read each indexed record
back, `assert tomb == 0` (a failure aborts the whole operation, modelled as
`none`), and append a fresh live record to the new segment, recording its
offset in the new index. -/
def compactLoop (fs : FS) (segName : FName) :
    Index → List Nat → Index → Option (List Nat × Index)
  | [], content, acc => some (content, acc)
  | (k, e) :: rest, content, acc =>
    match readEntry fs e with
    | none => none
    | some (tomb, v) =>
      if tomb = 0 then
        compactLoop fs segName rest
          (content ++ (packHeader k.length v.length 0 ++ k ++ v))
          (ainsert acc k ⟨segName, content.length, 9 + k.length + v.length⟩)
      else none

/-- `LogStructuredKV.compact`.  `open(compact_path, "wb")` creates the new
segment file empty on disk before the loop runs (its buffered contents are
not readable through the separate per-entry `open` calls).  On success every
other `*.log` file is deleted and a fresh empty `active.log` is opened; on an
assertion/read failure the exception propagates (`none`). -/
def compact (s : KV) : Option KV :=
  let segName := nextSegmentName s.files
  let fs0 := ainsert s.files segName []
  match compactLoop fs0 segName s.index [] [] with
  | none => none
  | some (content, newIdx) =>
    some { files := [(segName, content), (FName.active, [])],
           index := newIdx,
           activeFilename := FName.active,
           maxActiveSize := s.maxActiveSize }

/-- A decoded record, for reasoning about well-formed segment contents. -/
structure Rec where
  key : List Nat
  val : List Nat
  tomb : Nat
deriving DecidableEq

def encodeRec (r : Rec) : List Nat :=
  packHeader r.key.length r.val.length r.tomb ++ r.key ++ r.val

def Rec.size (r : Rec) : Nat := 9 + r.key.length + r.val.length

def encodeRecs : List Rec → List Nat
  | [] => []
  | r :: rs => encodeRec r ++ encodeRecs rs

/-- A record whose frame decodes back to itself. -/
def Rec.wf (r : Rec) : Prop :=
  r.key.length < 4294967296 ∧ r.val.length < 4294967296 ∧ r.tomb < 256

def wfRecs (rs : List Rec) : Prop := ∀ r ∈ rs, r.wf

/-- The effect of one replayed record on the index (`_rebuild_index` body). -/
def applyRec (fname : FName) (idx : Index) (off : Nat) (r : Rec) : Index :=
  if r.tomb = 1 then aerase idx r.key
  else ainsert idx r.key ⟨fname, off, r.size⟩

/-- Replay of a decoded record list, tracking offsets. -/
def replayRecs (fname : FName) (idx : Index) (off : Nat) : List Rec → Index
  | [] => idx
  | r :: rs => replayRecs fname (applyRec fname idx off r) (off + r.size) rs

/-- Public operations of one open session, for reasoning about operation
sequences. -/
inductive Op where
  | setOp (k v : List Nat)
  | delOp (k : List Nat)
deriving DecidableEq

def Op.key : Op → List Nat
  | .setOp k _ => k
  | .delOp k => k

/-- The size of the frame an operation appends, as passed to
`_rotate_active_if_needed`. -/
def Op.recSize : Op → Nat
  | .setOp k v => 9 + k.length + v.length
  | .delOp k => 9 + k.length

def applyOp (s : KV) : Op → KV
  | .setOp k v => set s k v
  | .delOp k => delete s k

def run (s : KV) (ops : List Op) : KV := ops.foldl applyOp s

/-- No operation of the sequence triggers a rotation when run from `s`. -/
def noRotate (s : KV) : List Op → Bool
  | [] => true
  | op :: t =>
    (decide ((activeContent s).length + op.recSize ≤ s.maxActiveSize)) &&
      noRotate (applyOp s op) t

/-- The live records `compact` writes, in index order. -/
def liveRecs (fs : FS) (idx : Index) : List Rec :=
  idx.map fun p => ⟨p.1, entryVal fs p.2, 0⟩

/-- The index `compact` builds for a record list laid out from `off`. -/
def buildIdx (segName : FName) (acc : Index) (off : Nat) : List Rec → Index
  | [] => acc
  | r :: rs => buildIdx segName (ainsert acc r.key ⟨segName, off, r.size⟩) (off + r.size) rs

/-- The entry's file exists, a full header is present, and its tombstone byte
is 0 (a live record by the engine's own decoding). -/
def entryLiveB (fs : FS) (e : Entry) : Bool :=
  match alookup fs e.fname with
  | none => false
  | some f =>
    decide (e.offset + 9 ≤ f.length) && decide ((readBytes f e.offset 9).getD 8 0 = 0)

/-- The entry decodes to a tombstone record. -/
def entryTombB (fs : FS) (e : Entry) : Bool :=
  match alookup fs e.fname with
  | none => false
  | some f =>
    decide (e.offset + 9 ≤ f.length) && decide ((readBytes f e.offset 9).getD 8 0 = 1)

/-- A concrete one-key store used by witnesses. -/
def sDelW : KV := set (openFresh 100) [97] [49]

/-- A corrupt store whose index points at a tombstone record, used by the C9
witness. -/
def sTombW : KV :=
  ⟨[(FName.active, packHeader 1 0 1 ++ [97])], [([97], ⟨FName.active, 0, 10⟩)],
    FName.active, 100⟩

/-- A three-operation store (`set a; set b; delete a`) used by the C5
witness. -/
def sC5pre : KV := delete (set (set (openFresh 1000) [97] [49]) [98] [50]) [97]

/-- The state `compact` produces on `sC5pre`. -/
def sC5post : KV := (compact sC5pre).getD (openFresh 0)

/-- A concrete record list used by witnesses. -/
def recsW : List Rec := [⟨[97], [49], 0⟩]

/-- A concrete single-segment store whose active file holds `recsW`. -/
def sEmptyW : KV := ⟨[(FName.active, encodeRecs recsW)], [], FName.active, 100⟩

/-! ### Helper lemmas: bytes and headers -/

@[simp] lemma length_u32be (n : Nat) : (u32be n).length = 4 := rfl

@[simp] lemma length_packHeader (a b t : Nat) : (packHeader a b t).length = 9 := rfl

lemma unpack_u32be (n : Nat) (rest : List Nat) (h : n < 4294967296) :
    unpackU32 (u32be n ++ rest) = n := by
  simp only [u32be, List.cons_append, List.nil_append, unpackU32]
  omega

lemma packHeader_eq (a b t : Nat) :
    packHeader a b t = u32be a ++ (u32be b ++ [t % 256]) := by
  simp [packHeader, List.append_assoc]

lemma unpack_packHeader_key (a b t : Nat) (h : a < 4294967296) (tail : List Nat) :
    unpackU32 (packHeader a b t ++ tail) = a := by
  rw [packHeader_eq, List.append_assoc, unpack_u32be _ _ h]

lemma unpack_packHeader_val (a b t : Nat) (h : b < 4294967296) (tail : List Nat) :
    unpackU32 ((packHeader a b t ++ tail).drop 4) = b := by
  rw [packHeader_eq, List.append_assoc,
    show (4 : Nat) = (u32be a).length from rfl, List.drop_left]
  rw [List.append_assoc, unpack_u32be _ _ h]

lemma getD8_packHeader (a b t : Nat) (tail : List Nat) :
    (packHeader a b t ++ tail).getD 8 0 = t % 256 := by
  simp [packHeader, u32be, List.getD]

/-! ### Helper lemmas: reads from byte lists -/

lemma readBytes_here (pre tail : List Nat) (n : Nat) :
    readBytes (pre ++ tail) pre.length n = tail.take n := by
  simp [readBytes, List.drop_left]

lemma take9_packHeader (a b t : Nat) (tail : List Nat) :
    (packHeader a b t ++ tail).take 9 = packHeader a b t := by
  rw [show (9 : Nat) = (packHeader a b t).length from rfl, List.take_left]

lemma take_all_append (a b : List Nat) : (a ++ b).take a.length = a :=
  List.take_left a b

lemma readBytes_frame_header (pre k v rest : List Nat) (t : Nat) :
    readBytes (pre ++ (packHeader k.length v.length t ++ (k ++ (v ++ rest))))
      pre.length 9 = packHeader k.length v.length t := by
  rw [readBytes_here, take9_packHeader]

lemma readBytes_frame_key (pre k v rest : List Nat) (t : Nat) :
    readBytes (pre ++ (packHeader k.length v.length t ++ (k ++ (v ++ rest))))
      (pre.length + 9) k.length = k := by
  have h : pre ++ (packHeader k.length v.length t ++ (k ++ (v ++ rest))) =
      (pre ++ packHeader k.length v.length t) ++ (k ++ (v ++ rest)) := by
    simp [List.append_assoc]
  have hlen : (pre ++ packHeader k.length v.length t).length = pre.length + 9 := by
    simp
  rw [h, ← hlen, readBytes_here, take_all_append]

lemma readBytes_frame_val (pre k v rest : List Nat) (t : Nat) :
    readBytes (pre ++ (packHeader k.length v.length t ++ (k ++ (v ++ rest))))
      (pre.length + 9 + k.length) v.length = v := by
  have h : pre ++ (packHeader k.length v.length t ++ (k ++ (v ++ rest))) =
      ((pre ++ packHeader k.length v.length t) ++ k) ++ (v ++ rest) := by
    simp [List.append_assoc]
  have hlen : ((pre ++ packHeader k.length v.length t) ++ k).length =
      pre.length + 9 + k.length := by simp; omega
  rw [h, ← hlen, readBytes_here, take_all_append]

lemma frame_length (k v : List Nat) (t : Nat) :
    (packHeader k.length v.length t ++ k ++ v).length = 9 + k.length + v.length := by
  simp; omega

/-! ### Helper lemmas: association lists -/

lemma alookup_ainsert_self {α β : Type} [DecidableEq α] (l : List (α × β)) (k : α) (v : β) :
    alookup (ainsert l k v) k = some v := by
  induction l with
  | nil => simp [ainsert, alookup]
  | cons p t ih =>
    by_cases h : p.1 = k
    · simp [ainsert, h, alookup]
    · simp [ainsert, h, alookup, ih]

lemma alookup_ainsert_ne {α β : Type} [DecidableEq α] (l : List (α × β)) (k' k : α) (v : β)
    (h : k' ≠ k) : alookup (ainsert l k' v) k = alookup l k := by
  induction l with
  | nil => simp only [ainsert, alookup, if_neg h]
  | cons p t ih =>
    by_cases hp : p.1 = k'
    · simp only [ainsert, if_pos hp, alookup]
      have hpk : p.1 ≠ k := by rw [hp]; exact h
      rw [if_neg hpk, if_neg hpk]
    · simp only [ainsert, if_neg hp, alookup]
      by_cases hk : p.1 = k
      · rw [if_pos hk, if_pos hk]
      · rw [if_neg hk, if_neg hk]
        exact ih

lemma alookup_aerase_ne {α β : Type} [DecidableEq α] (l : List (α × β)) (k' k : α)
    (h : k' ≠ k) : alookup (aerase l k') k = alookup l k := by
  induction l with
  | nil => rfl
  | cons p t ih =>
    by_cases hp : p.1 = k'
    · simp only [aerase, if_pos hp, alookup]
      have hpk : p.1 ≠ k := by rw [hp]; exact h
      rw [if_neg hpk]
    · simp only [aerase, if_neg hp, alookup]
      by_cases hk : p.1 = k
      · rw [if_pos hk, if_pos hk]
      · rw [if_neg hk, if_neg hk]
        exact ih

lemma alookup_none_iff {α β : Type} [DecidableEq α] (l : List (α × β)) (k : α) :
    alookup l k = none ↔ ∀ p ∈ l, p.1 ≠ k := by
  induction l with
  | nil => simp [alookup]
  | cons p t ih =>
    by_cases hp : p.1 = k
    · simp [alookup, hp]
    · simp [alookup, hp, ih]

lemma mem_of_alookup {α β : Type} [DecidableEq α] {l : List (α × β)} {k : α} {v : β}
    (h : alookup l k = some v) : (k, v) ∈ l := by
  induction l with
  | nil => simp [alookup] at h
  | cons p t ih =>
    by_cases hp : p.1 = k
    · simp [alookup, hp] at h
      have hkv : (k, v) = p := by rw [← hp, ← h]
      rw [hkv]
      exact List.mem_cons_self p t
    · simp [alookup, hp] at h
      exact List.mem_cons_of_mem _ (ih h)

lemma alookup_aerase_self {α β : Type} [DecidableEq α] (l : List (α × β)) (k : α)
    (hnd : (l.map Prod.fst).Nodup) : alookup (aerase l k) k = none := by
  induction l with
  | nil => rfl
  | cons p t ih =>
    simp only [List.map_cons, List.nodup_cons] at hnd
    by_cases hp : p.1 = k
    · simp only [aerase, if_pos hp]
      rw [alookup_none_iff]
      intro q hq hqk
      apply hnd.1
      rw [hp, ← hqk]
      exact List.mem_map_of_mem _ hq
    · simp only [aerase, if_neg hp, alookup, if_neg hp]
      exact ih hnd.2

lemma alookup_some_split {α β : Type} [DecidableEq α] {l : List (α × β)} {k : α} {v : β}
    (h : alookup l k = some v) :
    ∃ A B, l = A ++ (k, v) :: B ∧ ∀ p ∈ A, p.1 ≠ k := by
  induction l with
  | nil => simp [alookup] at h
  | cons p t ih =>
    by_cases hp : p.1 = k
    · simp [alookup, hp] at h
      refine ⟨[], t, ?_, by simp⟩
      simp
      calc p = (p.1, p.2) := rfl
        _ = (k, v) := by rw [hp, h]
    · simp [alookup, hp] at h
      obtain ⟨A, B, hl, hA⟩ := ih h
      refine ⟨p :: A, B, by rw [hl]; rfl, ?_⟩
      intro q hq
      rcases List.mem_cons.mp hq with hq | hq
      · rw [hq]; exact hp
      · exact hA q hq

/-! ### Helper lemmas: segment naming -/

lemma le_foldl_max (l : List Nat) (a : Nat) : a ≤ l.foldl Nat.max a := by
  induction l generalizing a with
  | nil => exact Nat.le_refl a
  | cons y t ih => exact Nat.le_trans (Nat.le_max_left a y) (ih (Nat.max a y))

lemma mem_le_foldl_max {x : Nat} : ∀ (l : List Nat) (a : Nat), x ∈ l →
    x ≤ l.foldl Nat.max a := by
  intro l
  induction l with
  | nil =>
    intro a h
    simp at h
  | cons y t ih =>
    intro a h
    rcases List.mem_cons.mp h with h | h
    · rw [h]
      exact Nat.le_trans (Nat.le_max_right a y) (le_foldl_max t (Nat.max a y))
    · exact ih (Nat.max a y) h

lemma alookup_nextSegment (fs : FS) : alookup fs (nextSegmentName fs) = none := by
  cases h : alookup fs (nextSegmentName fs) with
  | none => rfl
  | some c =>
    exfalso
    have hmem := mem_of_alookup h
    have hnum : nextSegmentNum fs ∈
        fs.filterMap fun p => match p.1 with | .segment n => some n | .active => none := by
      exact List.mem_filterMap.mpr ⟨(nextSegmentName fs, c), hmem, rfl⟩
    have := mem_le_foldl_max _ 0 hnum
    simp only [nextSegmentNum] at this
    omega

/-! ### Helper lemmas: state mechanics -/

lemma activeContent_writeActive (s : KV) (bs : List Nat) :
    activeContent (writeActive s bs) = activeContent s ++ bs := by
  simp [writeActive, activeContent, alookup_ainsert_self]

lemma activeFilename_writeActive (s : KV) (bs : List Nat) :
    (writeActive s bs).activeFilename = s.activeFilename := rfl

lemma rotate_of_le (s : KV) (kl vl : Nat)
    (h : (activeContent s).length + 9 + kl + vl ≤ s.maxActiveSize) :
    rotateIfNeeded s kl vl = s := by
  simp only [rotateIfNeeded]
  rw [if_neg (by omega)]

lemma rotate_reset (s : KV) (kl vl : Nat)
    (hnd : (s.files.map Prod.fst).Nodup) (haf : s.activeFilename = FName.active)
    (h : s.maxActiveSize < (activeContent s).length + 9 + kl + vl) :
    activeContent (rotateIfNeeded s kl vl) = [] := by
  simp only [rotateIfNeeded]
  rw [if_pos (by omega)]
  have hseg : nextSegmentName s.files ≠ s.activeFilename := by
    rw [haf]
    simp [nextSegmentName]
  have h1 : alookup (ainsert (aerase s.files s.activeFilename) (nextSegmentName s.files)
      (activeContent s)) s.activeFilename = none := by
    rw [alookup_ainsert_ne _ _ _ _ hseg]
    exact alookup_aerase_self _ _ hnd
  rw [h1]
  simp only [activeContent, alookup_ainsert_self]
  rfl

lemma rotate_activeFilename (s : KV) (kl vl : Nat) :
    (rotateIfNeeded s kl vl).activeFilename = s.activeFilename := by
  simp only [rotateIfNeeded]
  by_cases h : s.maxActiveSize < (activeContent s).length + 9 + kl + vl
  · rw [if_pos h]
  · rw [if_neg h]

lemma rotate_max (s : KV) (kl vl : Nat) :
    (rotateIfNeeded s kl vl).maxActiveSize = s.maxActiveSize := by
  simp only [rotateIfNeeded]
  by_cases h : s.maxActiveSize < (activeContent s).length + 9 + kl + vl
  · rw [if_pos h]
  · rw [if_neg h]

lemma rotate_index (s : KV) (kl vl : Nat) :
    (rotateIfNeeded s kl vl).index = s.index := by
  simp only [rotateIfNeeded]
  by_cases h : s.maxActiveSize < (activeContent s).length + 9 + kl + vl
  · rw [if_pos h]
  · rw [if_neg h]

lemma activeContent_withIndex (t : KV) (i : Index) :
    activeContent { t with index := i } = activeContent t := rfl

lemma activeContent_set (s : KV) (k v : List Nat) :
    activeContent (set s k v) =
      activeContent (rotateIfNeeded s k.length v.length) ++
        (packHeader k.length v.length 0 ++ k ++ v) := by
  simp only [set]
  rw [activeContent_withIndex, activeContent_writeActive]

lemma activeContent_delete (s : KV) (k : List Nat) :
    activeContent (delete s k) =
      activeContent (rotateIfNeeded s k.length 0) ++ (packHeader k.length 0 1 ++ k) := by
  simp only [delete]
  rw [activeContent_withIndex, activeContent_writeActive]

lemma index_writeActive (s : KV) (bs : List Nat) :
    (writeActive s bs).index = s.index := rfl

lemma index_set (s : KV) (k v : List Nat) :
    (set s k v).index = ainsert s.index k
      ⟨s.activeFilename, (activeContent (rotateIfNeeded s k.length v.length)).length,
        9 + k.length + v.length⟩ := by
  simp only [set, index_writeActive, rotate_index, activeFilename_writeActive,
    rotate_activeFilename]

lemma index_delete (s : KV) (k : List Nat) :
    (delete s k).index = aerase s.index k := by
  simp only [delete, index_writeActive, rotate_index]

lemma unpack_packHeader_keyP (a b t : Nat) (h : a < 4294967296) :
    unpackU32 (packHeader a b t) = a := by
  have h2 := unpack_packHeader_key a b t h []
  rwa [List.append_nil] at h2

lemma unpack_packHeader_valP (a b t : Nat) (h : b < 4294967296) :
    unpackU32 ((packHeader a b t).drop 4) = b := by
  have h2 := unpack_packHeader_val a b t h []
  rwa [List.append_nil] at h2

lemma getD8_packHeaderP (a b t : Nat) : (packHeader a b t).getD 8 0 = t % 256 := by
  have h2 := getD8_packHeader a b t []
  rwa [List.append_nil] at h2

/-- If the index maps `k` to an offset of the active file where a live,
well-framed record for `(k, v)` sits, `get k` returns `v`. -/
lemma get_of_entry (s : KV) (k v pre rest : List Nat)
    (hk : k.length < 4294967296) (hv : v.length < 4294967296)
    (hidx : alookup s.index k =
      some ⟨s.activeFilename, pre.length, 9 + k.length + v.length⟩)
    (hfile : alookup s.files s.activeFilename =
      some (pre ++ (packHeader k.length v.length 0 ++ (k ++ (v ++ rest))))) :
    get s k = .found v := by
  simp only [get, hidx, hfile]
  rw [if_neg (by simp)]
  rw [readBytes_frame_header, unpack_packHeader_keyP _ _ _ hk,
    unpack_packHeader_valP _ _ _ hv, getD8_packHeaderP]
  rw [if_neg (by omega)]
  rw [readBytes_frame_val]

lemma run_nil (s : KV) : run s [] = s := rfl

lemma run_cons (s : KV) (op : Op) (t : List Op) :
    run s (op :: t) = run (applyOp s op) t := rfl

lemma activeFilename_set (s : KV) (k v : List Nat) :
    (set s k v).activeFilename = s.activeFilename := by
  simp [set, writeActive, rotate_activeFilename]

lemma activeFilename_delete (s : KV) (k : List Nat) :
    (delete s k).activeFilename = s.activeFilename := by
  simp [delete, writeActive, rotate_activeFilename]

lemma files_set (s : KV) (k v : List Nat) :
    (set s k v).files = ainsert (rotateIfNeeded s k.length v.length).files
      (rotateIfNeeded s k.length v.length).activeFilename
      (activeContent (rotateIfNeeded s k.length v.length) ++
        (packHeader k.length v.length 0 ++ k ++ v)) := by
  simp [set, writeActive]

lemma files_delete (s : KV) (k : List Nat) :
    (delete s k).files = ainsert (rotateIfNeeded s k.length 0).files
      (rotateIfNeeded s k.length 0).activeFilename
      (activeContent (rotateIfNeeded s k.length 0) ++
        (packHeader k.length 0 1 ++ k)) := by
  simp [delete, writeActive]

/-- One further operation on a different key, appended without rotation,
keeps a framed record of the active file and its index entry intact. -/
lemma invariant_applyOp (s : KV) (op : Op) (k v pre rest : List Nat)
    (hk1 : op.key ≠ k)
    (hsz : (activeContent s).length + op.recSize ≤ s.maxActiveSize)
    (hf : alookup s.files s.activeFilename =
      some (pre ++ (packHeader k.length v.length 0 ++ (k ++ (v ++ rest)))))
    (hi : alookup s.index k =
      some ⟨s.activeFilename, pre.length, 9 + k.length + v.length⟩) :
    ∃ rest2,
      alookup (applyOp s op).files (applyOp s op).activeFilename =
        some (pre ++ (packHeader k.length v.length 0 ++ (k ++ (v ++ rest2)))) ∧
      alookup (applyOp s op).index k =
        some ⟨s.activeFilename, pre.length, 9 + k.length + v.length⟩ ∧
      (applyOp s op).activeFilename = s.activeFilename := by
  have hac : activeContent s =
      pre ++ (packHeader k.length v.length 0 ++ (k ++ (v ++ rest))) := by
    rw [activeContent, hf]
    rfl
  cases op with
  | setOp k' v' =>
    simp only [Op.key] at hk1
    simp only [Op.recSize] at hsz
    have hnr : rotateIfNeeded s k'.length v'.length = s :=
      rotate_of_le s _ _ (by omega)
    refine ⟨rest ++ (packHeader k'.length v'.length 0 ++ k' ++ v'), ?_, ?_, ?_⟩
    · show alookup (set s k' v').files (set s k' v').activeFilename = _
      rw [activeFilename_set, files_set, hnr, alookup_ainsert_self]
      rw [hac]
      simp [List.append_assoc]
    · show alookup (set s k' v').index k = _
      rw [index_set, alookup_ainsert_ne _ _ _ _ hk1, hi]
    · exact activeFilename_set s k' v'
  | delOp k' =>
    simp only [Op.key] at hk1
    simp only [Op.recSize] at hsz
    have hnr : rotateIfNeeded s k'.length 0 = s :=
      rotate_of_le s _ _ (by omega)
    refine ⟨rest ++ (packHeader k'.length 0 1 ++ k'), ?_, ?_, ?_⟩
    · show alookup (delete s k').files (delete s k').activeFilename = _
      rw [activeFilename_delete, files_delete, hnr, alookup_ainsert_self]
      rw [hac]
      simp [List.append_assoc]
    · show alookup (delete s k').index k = _
      rw [index_delete, alookup_aerase_ne _ _ _ hk1, hi]
    · exact activeFilename_delete s k'

/-- A rotation-free operation sequence that never touches `k` preserves `k`'s
framed record and index entry. -/
lemma run_preserves_entry :
    ∀ (ops : List Op) (s : KV) (k v pre rest : List Nat),
    (∀ op ∈ ops, op.key ≠ k) →
    noRotate s ops = true →
    alookup s.files s.activeFilename =
      some (pre ++ (packHeader k.length v.length 0 ++ (k ++ (v ++ rest)))) →
    alookup s.index k =
      some ⟨s.activeFilename, pre.length, 9 + k.length + v.length⟩ →
    ∃ rest2,
      alookup (run s ops).files (run s ops).activeFilename =
        some (pre ++ (packHeader k.length v.length 0 ++ (k ++ (v ++ rest2)))) ∧
      alookup (run s ops).index k =
        some ⟨(run s ops).activeFilename, pre.length, 9 + k.length + v.length⟩ ∧
      (run s ops).activeFilename = s.activeFilename := by
  intro ops
  induction ops with
  | nil =>
    intro s k v pre rest _ _ hf hi
    exact ⟨rest, hf, hi, rfl⟩
  | cons op t ih =>
    intro s k v pre rest hks hnr hf hi
    have hk1 : op.key ≠ k := hks op (List.mem_cons_self op t)
    have hkt : ∀ o ∈ t, o.key ≠ k := fun o ho => hks o (List.mem_cons_of_mem op ho)
    rw [noRotate] at hnr
    simp only [Bool.and_eq_true] at hnr
    rcases hnr with ⟨hsz, hnrt⟩
    have hsz2 : (activeContent s).length + op.recSize ≤ s.maxActiveSize :=
      of_decide_eq_true hsz
    obtain ⟨rest2, hf2, hi2, haf2⟩ := invariant_applyOp s op k v pre rest hk1 hsz2 hf hi
    rw [run_cons]
    obtain ⟨rest3, hf3, hi3, haf3⟩ := ih (applyOp s op) k v pre rest2 hkt hnrt hf2
      (by rw [haf2]; exact hi2)
    exact ⟨rest3, hf3, hi3, by rw [haf3, haf2]⟩

/-! ### Helper lemmas: encoded record lists and replay -/

lemma length_encodeRec (r : Rec) : (encodeRec r).length = r.size := by
  simp [encodeRec, Rec.size]
  omega

lemma encodeRecs_append (a b : List Rec) :
    encodeRecs (a ++ b) = encodeRecs a ++ encodeRecs b := by
  induction a with
  | nil => rfl
  | cons r t ih => simp [encodeRecs, ih, List.append_assoc]

lemma count_le_length_encodeRecs (rs : List Rec) :
    rs.length ≤ (encodeRecs rs).length := by
  induction rs with
  | nil => simp [encodeRecs]
  | cons r t ih =>
    have h := length_encodeRec r
    simp only [encodeRecs, List.length_cons, List.length_append, h, Rec.size]
    omega

/-- The `_rebuild_index` loop over a file that is a well-formed record list
laid out after `pre` equals the abstract replay of those records. -/
lemma replayGo_spec (fname : FName) :
    ∀ (recs : List Rec) (pre : List Nat) (idx : Index) (fuel : Nat),
    wfRecs recs → recs.length + 1 ≤ fuel →
    replayGo fname (pre ++ encodeRecs recs) fuel idx pre.length =
      replayRecs fname idx pre.length recs := by
  intro recs
  induction recs with
  | nil =>
    intro pre idx fuel _ hfuel
    match fuel, hfuel with
    | fuel + 1, _ =>
      simp only [encodeRecs, List.append_nil, replayGo, replayRecs]
      rw [if_pos (by omega)]
  | cons r rs ih =>
    intro pre idx fuel hwf hfuel
    match fuel, hfuel with
    | fuel + 1, hfuel =>
      obtain ⟨hk, hv, ht⟩ := hwf r (List.mem_cons_self r rs)
      have hwft : wfRecs rs := fun q hq => hwf q (List.mem_cons_of_mem r hq)
      have hshape : pre ++ encodeRecs (r :: rs) =
          pre ++ (packHeader r.key.length r.val.length r.tomb ++
            (r.key ++ (r.val ++ encodeRecs rs))) := by
        simp [encodeRecs, encodeRec, List.append_assoc]
      rw [hshape]
      simp only [replayGo]
      rw [if_neg (by simp)]
      rw [readBytes_frame_header, unpack_packHeader_keyP _ _ _ hk,
        unpack_packHeader_valP _ _ _ hv, getD8_packHeaderP, Nat.mod_eq_of_lt ht,
        readBytes_frame_key]
      have hfile : pre ++ (packHeader r.key.length r.val.length r.tomb ++
          (r.key ++ (r.val ++ encodeRecs rs))) =
          (pre ++ encodeRec r) ++ encodeRecs rs := by
        simp [encodeRec, List.append_assoc]
      have hoff : pre.length + (9 + r.key.length + r.val.length) =
          (pre ++ encodeRec r).length := by
        simp [length_encodeRec, Rec.size]
      rw [hfile, hoff, ih (pre ++ encodeRec r) _ fuel hwft
        (by simp only [List.length_cons] at hfuel; omega)]
      simp only [replayRecs, applyRec, Rec.size]
      rw [← hoff]

lemma replayRecs_append (fname : FName) :
    ∀ (a b : List Rec) (idx : Index) (off : Nat),
    replayRecs fname idx off (a ++ b) =
      replayRecs fname (replayRecs fname idx off a) (off + (encodeRecs a).length) b := by
  intro a
  induction a with
  | nil =>
    intro b idx off
    simp [replayRecs, encodeRecs]
  | cons r t ih =>
    intro b idx off
    simp only [List.cons_append, replayRecs]
    simp only [List.append_eq]
    rw [ih]
    have h := length_encodeRec r
    have h2 : off + r.size + (encodeRecs t).length = off + (encodeRecs (r :: t)).length := by
      simp only [encodeRecs, List.length_append, h]
      omega
    rw [h2]

lemma replayFile_encodeRecs (fname : FName) (recs : List Rec) (hwf : wfRecs recs) :
    replayFile fname (encodeRecs recs) [] = replayRecs fname [] 0 recs := by
  have h := replayGo_spec fname recs [] [] ((encodeRecs recs).length + 1) hwf
    (by have := count_le_length_encodeRecs recs; omega)
  simpa [replayFile] using h

lemma rebuildIndex_single (c : List Nat) :
    rebuildIndex [(FName.active, c)] = replayFile FName.active c [] := rfl

lemma openStore_of_active (fs : FS) (maxA : Nat) (c : List Nat)
    (h : alookup fs FName.active = some c) :
    openStore fs maxA = ⟨fs, rebuildIndex fs, FName.active, maxA⟩ := by
  simp [openStore, h]

/-! ### Helper lemmas: compaction -/

lemma readEntry_some {fs : FS} {e : Entry} {t : Nat} {v : List Nat}
    (h : readEntry fs e = some (t, v)) :
    ∃ f, alookup fs e.fname = some f ∧ e.offset + 9 ≤ f.length ∧
      t = (readBytes f e.offset 9).getD 8 0 ∧ v = entryVal fs e := by
  cases hf : alookup fs e.fname with
  | none =>
    simp [readEntry, hf] at h
  | some f =>
    simp only [readEntry, hf] at h
    by_cases hl : f.length < e.offset + 9
    · rw [if_pos hl] at h
      simp at h
    · rw [if_neg hl] at h
      simp only [Option.some.injEq, Prod.mk.injEq] at h
      refine ⟨f, rfl, by omega, h.1.symm, ?_⟩
      simp only [entryVal, hf]
      exact h.2.symm

lemma readEntry_of_header {fs : FS} {e : Entry} {f : List Nat}
    (hf : alookup fs e.fname = some f) (hl : e.offset + 9 ≤ f.length) :
    readEntry fs e =
      some ((readBytes f e.offset 9).getD 8 0, entryVal fs e) := by
  simp only [readEntry, entryVal, hf]
  rw [if_neg (by omega)]

lemma compactLoop_sound (fs : FS) (nm : FName) :
    ∀ (idx : Index) (content : List Nat) (acc : Index) (out : List Nat × Index),
    compactLoop fs nm idx content acc = some out →
    out.1 = content ++ encodeRecs (liveRecs fs idx) ∧
    out.2 = buildIdx nm acc content.length (liveRecs fs idx) ∧
    ∀ p ∈ idx, readEntry fs p.2 = some (0, entryVal fs p.2) := by
  intro idx
  induction idx with
  | nil =>
    intro content acc out h
    simp only [compactLoop, Option.some.injEq] at h
    subst h
    simp [liveRecs, encodeRecs, buildIdx]
  | cons p rest ih =>
    intro content acc out h
    obtain ⟨k, e⟩ := p
    rw [compactLoop] at h
    cases hre : readEntry fs e with
    | none =>
      simp [hre] at h
    | some tv =>
      obtain ⟨t, v⟩ := tv
      simp only [hre] at h
      by_cases ht : t = 0
      · subst ht
        rw [if_pos rfl] at h
        obtain ⟨h1, h2, h3⟩ := ih _ _ _ h
        obtain ⟨f, hf, hl, htomb, hv⟩ := readEntry_some hre
        subst hv
        refine ⟨?_, ?_, ?_⟩
        · rw [h1]
          simp [liveRecs, encodeRecs, encodeRec, List.append_assoc]
        · rw [h2]
          have hcl : (content ++ (packHeader k.length (entryVal fs e).length 0 ++ k ++
              entryVal fs e)).length = content.length + (9 + k.length +
              (entryVal fs e).length) := by
            rw [List.length_append, frame_length]
          rw [hcl]
          simp [liveRecs, buildIdx, Rec.size]
        · intro q hq
          rcases List.mem_cons.mp hq with hq | hq
          · rw [hq]
            exact hre
          · exact h3 q hq
      · rw [if_neg ht] at h
        simp at h


lemma buildIdx_fname (nm : FName) :
    ∀ (recs : List Rec) (acc : Index) (off : Nat) (k : List Nat) (e : Entry),
    alookup (buildIdx nm acc off recs) k = some e →
    e.fname = nm ∨ alookup acc k = some e := by
  intro recs
  induction recs with
  | nil =>
    intro acc off k e h
    exact Or.inr h
  | cons r t ih =>
    intro acc off k e h
    rw [buildIdx] at h
    rcases ih _ _ _ _ h with h2 | h2
    · exact Or.inl h2
    · by_cases hk : r.key = k
      · subst hk
        rw [alookup_ainsert_self] at h2
        rcases Option.some.injEq .. ▸ h2 with rfl
        exact Or.inl rfl
      · rw [alookup_ainsert_ne _ _ _ _ hk] at h2
        exact Or.inr h2

lemma buildIdx_not_mem (nm : FName) :
    ∀ (recs : List Rec) (acc : Index) (off : Nat) (k : List Nat),
    k ∉ recs.map Rec.key →
    alookup (buildIdx nm acc off recs) k = alookup acc k := by
  intro recs
  induction recs with
  | nil =>
    intro acc off k _
    rfl
  | cons r t ih =>
    intro acc off k hk
    simp only [List.map_cons, List.mem_cons] at hk
    push_neg at hk
    rw [buildIdx, ih _ _ _ (by exact hk.2),
      alookup_ainsert_ne _ _ _ _ (fun he => hk.1 he.symm)]

lemma buildIdx_found (nm : FName) :
    ∀ (A : List Rec) (r : Rec) (B : List Rec) (acc : Index) (off : Nat),
    r.key ∉ B.map Rec.key →
    alookup (buildIdx nm acc off (A ++ r :: B)) r.key =
      some ⟨nm, off + (encodeRecs A).length, r.size⟩ := by
  intro A
  induction A with
  | nil =>
    intro r B acc off hB
    rw [List.nil_append, buildIdx, buildIdx_not_mem nm B _ _ _ hB,
      alookup_ainsert_self]
    simp [encodeRecs]
  | cons a A ih =>
    intro r B acc off hB
    rw [List.cons_append, buildIdx, ih r B _ _ hB]
    have h := length_encodeRec a
    have h2 : off + a.size + (encodeRecs A).length = off + (encodeRecs (a :: A)).length := by
      simp only [encodeRecs, List.length_append, h]
      omega
    rw [h2]

lemma liveRecs_keys (fs : FS) (idx : Index) :
    (liveRecs fs idx).map Rec.key = idx.map Prod.fst := by
  simp [liveRecs, List.map_map]

lemma unpackU32_lt (bs : List Nat) (h : ∀ b ∈ bs, b < 256) :
    unpackU32 bs < 4294967296 := by
  match bs, h with
  | [], _ => simp [unpackU32]
  | [a], _ => simp [unpackU32]
  | [a, b], _ => simp [unpackU32]
  | [a, b, c], _ => simp [unpackU32]
  | a :: b :: c :: d :: t, h =>
    have ha := h a (by simp)
    have hb := h b (by simp)
    have hc := h c (by simp)
    have hd := h d (by simp)
    simp only [unpackU32]
    omega

lemma mem_ainsert {α β : Type} [DecidableEq α] :
    ∀ (l : List (α × β)) (k : α) (v : β) (q : α × β),
    q ∈ ainsert l k v → q ∈ l ∨ q = (k, v) := by
  intro l
  induction l with
  | nil =>
    intro k v q hq
    simp [ainsert] at hq
    exact Or.inr hq
  | cons p t ih =>
    intro k v q hq
    by_cases hp : p.1 = k
    · simp only [ainsert, if_pos hp] at hq
      rcases List.mem_cons.mp hq with hq | hq
      · subst hq
        subst hp
        exact Or.inr rfl
      · exact Or.inl (List.mem_cons_of_mem p hq)
    · simp only [ainsert, if_neg hp] at hq
      rcases List.mem_cons.mp hq with hq | hq
      · exact Or.inl (by rw [hq]; exact List.mem_cons_self p t)
      · rcases ih k v q hq with h2 | h2
        · exact Or.inl (List.mem_cons_of_mem p h2)
        · exact Or.inr h2

lemma mem_readBytes {f : List Nat} {off n b : Nat} (h : b ∈ readBytes f off n) :
    b ∈ f :=
  List.mem_of_mem_drop (List.mem_of_mem_take h)

/-- The value the compaction read-back produces is always shorter than 2^32
when the directory holds genuine byte values (below 256), because its length
is bounded by a decoded 32-bit length field. -/
lemma entryVal_length_lt (fs : FS) (e : Entry)
    (hbytes : ∀ q ∈ fs, ∀ b ∈ Prod.snd q, b < 256) :
    (entryVal fs e).length < 4294967296 := by
  cases hf : alookup fs e.fname with
  | none => simp [entryVal, hf]
  | some f =>
    simp only [entryVal, hf]
    have hmem := mem_of_alookup hf
    have hb : ∀ b ∈ (readBytes f e.offset 9).drop 4, b < 256 := by
      intro b hbm
      exact hbytes (e.fname, f) hmem b (mem_readBytes (List.mem_of_mem_drop hbm))
    have h32 := unpackU32_lt _ hb
    have hlen := List.length_take (unpackU32 ((readBytes f e.offset 9).drop 4))
      (f.drop (e.offset + 9 + unpackU32 (readBytes f e.offset 9)))
    simp only [readBytes] at h32 hlen ⊢
    omega


/-- Looking up any existing file is unchanged by the creation of the fresh
(empty) compaction segment. -/
lemma alookup_fs0 {fs : FS} {x : FName} {c : List Nat}
    (hx : alookup fs x = some c) :
    alookup (ainsert fs (nextSegmentName fs) []) x = some c := by
  have hne : nextSegmentName fs ≠ x := by
    intro he
    rw [← he] at hx
    rw [alookup_nextSegment fs] at hx
    exact Option.noConfusion hx
  rw [alookup_ainsert_ne _ _ _ _ hne]
  exact hx

lemma alookup_fs0_new (fs : FS) :
    alookup (ainsert fs (nextSegmentName fs) []) (nextSegmentName fs) = some [] :=
  alookup_ainsert_self fs (nextSegmentName fs) []

/-- When every indexed entry decodes to a live record, the compaction loop
completes. -/
lemma compactLoop_of_live (fs0 : FS) (nm : FName) :
    ∀ (idx : Index) (content : List Nat) (acc : Index),
    (∀ p ∈ idx, entryLiveB fs0 p.2 = true) →
    (compactLoop fs0 nm idx content acc).isSome = true := by
  intro idx
  induction idx with
  | nil =>
    intro content acc _
    rfl
  | cons p rest ih =>
    intro content acc hlive
    obtain ⟨k, e⟩ := p
    have hl := hlive (k, e) (List.mem_cons_self _ _)
    rw [compactLoop]
    cases hf : alookup fs0 e.fname with
    | none => simp [entryLiveB, hf] at hl
    | some f =>
      simp only [entryLiveB, hf, Bool.and_eq_true, decide_eq_true_eq] at hl
      rw [readEntry_of_header hf hl.1, hl.2]
      exact ih _ _ (fun q hq => hlive q (List.mem_cons_of_mem _ hq))

lemma compact_elim {s s2 : KV} (hc : compact s = some s2) :
    ∃ content newIdx,
      compactLoop (ainsert s.files (nextSegmentName s.files) [])
        (nextSegmentName s.files) s.index [] [] = some (content, newIdx) ∧
      s2 = ⟨[(nextSegmentName s.files, content), (FName.active, [])], newIdx,
        FName.active, s.maxActiveSize⟩ := by
  simp only [compact] at hc
  cases hcl : compactLoop (ainsert s.files (nextSegmentName s.files) [])
      (nextSegmentName s.files) s.index [] [] with
  | none =>
    rw [hcl] at hc
    simp at hc
  | some out =>
    obtain ⟨content, newIdx⟩ := out
    rw [hcl] at hc
    simp only [Option.some.injEq] at hc
    exact ⟨content, newIdx, rfl, hc.symm⟩

/-! ### Claim theorems -/

/-- C1: the claim says startup replay enumerates sealed segments oldest first
and replays the active segment last, so the rebuilt index points at the most
recently written record of every key.  The code instead replays the plain
`sorted()` filename order, in which `"active.log"` sorts before every
`"segment-*.log"`: after `set k v1; set k v2` (the second `set` rotating `v1`
into `segment-00001.log`) and a close/reopen, the rebuilt index points at the
sealed, older record and `get` returns `v1`, not the last-written `v2`. -/
theorem replay_order_bug :
    get (reopen (close (set (set (openFresh 15) [97] [49]) [97] [50]))) [97] =
      .found [49] ∧
    alookup (reopen (close (set (set (openFresh 15) [97] [49]) [97] [50]))).index [97] =
      some ⟨.segment 1, 0, 11⟩ := by
  decide

/-- C2: the claim says a close/reopen rebuilds an index byte-identical to the
pre-close in-memory index and preserves every key's last-written value.  With
a rotation in the session this fails: before close the index maps the key to
`("active.log", 0)` and `get` returns the last value `[2]`; after reopen the
rebuilt index points into `segment-00001.log` (not byte-identical) and `get`
returns the first value `[1]`, losing the last write. -/
theorem restart_rebuild_bug :
    get (set (set (openFresh 15) [107] [1]) [107] [2]) [107] = .found [2] ∧
    get (reopen (close (set (set (openFresh 15) [107] [1]) [107] [2]))) [107] =
      .found [1] ∧
    (reopen (close (set (set (openFresh 15) [107] [1]) [107] [2]))).index ≠
      (set (set (openFresh 15) [107] [1]) [107] [2]).index := by
  decide

/-- C3: the claim says that after a rotation every previously written key
remains retrievable with its last-written value.  Rotation renames the active
file but leaves index entries naming `"active.log"`, so after
`set [97] [49]; set [98] [50]` (the second `set` rotating), `get [97]` reads
offset 0 of the new active file — which holds the `[98]` record — and returns
`[50]` instead of `[49]`, even though the old data was sealed intact into
`segment-00001.log` (third conjunct). -/
theorem rotation_stale_index_bug :
    get (set (set (openFresh 15) [97] [49]) [98] [50]) [97] = .found [50] ∧
    GetResult.found [50] ≠ GetResult.found [49] ∧
    alookup (set (set (openFresh 15) [97] [49]) [98] [50]).files (FName.segment 1) =
      some (packHeader 1 1 0 ++ [97] ++ [49]) := by
  decide

/-- C6: the claim says a torn trailing record (complete header, truncated
key/value bytes) is ignored by replay.  In the code `f.read(key_len)` simply
returns the fewer available bytes and the loop then indexes that truncated
key: a file holding one complete record for key `[97]` followed by a header
that claims `key_len = 3` with a single trailing byte `[98]` yields an index
with a second, bogus entry for the truncated key `[98]` whose declared record
size (12) extends past the end of the 21-byte file. -/
theorem torn_record_indexed_bug :
    alookup (rebuildIndex
        [(FName.active, encodeRec ⟨[97], [49], 0⟩ ++ (packHeader 3 0 0 ++ [98]))]) [98] =
      some ⟨FName.active, 11, 12⟩ ∧
    (rebuildIndex
        [(FName.active, encodeRec ⟨[97], [49], 0⟩ ++ (packHeader 3 0 0 ++ [98]))]).map
        Prod.fst = [[97], [98]] := by
  decide

/-- C7: `delete` always succeeds, always appends a tombstone record (header
`(key_len, 0, 1)` followed by the key, i.e. value length 0) to the active
segment — even when the key was never set — and then removes the key from the
index, so a subsequent `get` returns not-found.  The `hnd` hypothesis is the
key-uniqueness invariant of the Python `dict` backing the index. -/
theorem delete_tombstone_spec (s : KV) (k : List Nat)
    (hnd : (s.index.map Prod.fst).Nodup) :
    activeContent (delete s k) =
      activeContent (rotateIfNeeded s k.length 0) ++ (packHeader k.length 0 1 ++ k) ∧
    alookup (delete s k).index k = none ∧
    get (delete s k) k = .notFound := by
  have h2 : alookup (delete s k).index k = none := by
    rw [index_delete]
    exact alookup_aerase_self _ _ hnd
  refine ⟨activeContent_delete s k, h2, ?_⟩
  simp [get, h2]

/-- Witness for C7 at a concrete store and a never-set key. -/
theorem delete_tombstone_witness :
    (sDelW.index.map Prod.fst).Nodup ∧
    (activeContent (delete sDelW [5]) =
        activeContent (rotateIfNeeded sDelW [5].length 0) ++
          (packHeader [5].length 0 1 ++ [5]) ∧
      alookup (delete sDelW [5]).index [5] = none ∧
      get (delete sDelW [5]) [5] = .notFound) :=
  ⟨by decide, delete_tombstone_spec sDelW [5] (by decide)⟩

/-- C8: after every `set` and every `delete` the active segment's byte size
exceeds `max_active_size` by at most the size of the one record just
appended, because `_rotate_active_if_needed` runs before the append; the
third conjunct shows the seal: whenever the current size plus the incoming
record would exceed the bound, the post-`set` active file holds exactly the
new record.  `hnd` is uniqueness of filenames in a directory and `haf` the
engine's invariant that the active file is named `"active.log"`. -/
theorem active_size_bound (s : KV) (k v : List Nat)
    (hnd : (s.files.map Prod.fst).Nodup)
    (haf : s.activeFilename = FName.active) :
    (activeContent (set s k v)).length ≤ s.maxActiveSize + (9 + k.length + v.length) ∧
    (activeContent (delete s k)).length ≤ s.maxActiveSize + (9 + k.length) ∧
    (s.maxActiveSize < (activeContent s).length + 9 + k.length + v.length →
      activeContent (set s k v) = packHeader k.length v.length 0 ++ k ++ v) := by
  refine ⟨?_, ?_, ?_⟩
  · rw [activeContent_set]
    by_cases h : s.maxActiveSize < (activeContent s).length + 9 + k.length + v.length
    · rw [rotate_reset s _ _ hnd haf h, List.nil_append, frame_length]
      omega
    · rw [rotate_of_le s _ _ (by omega), List.length_append, frame_length]
      omega
  · rw [activeContent_delete]
    by_cases h : s.maxActiveSize < (activeContent s).length + 9 + k.length + 0
    · rw [rotate_reset s _ _ hnd haf h, List.nil_append]
      have : (packHeader k.length 0 1 ++ k).length = 9 + k.length := by simp
      omega
    · rw [rotate_of_le s _ _ (by omega), List.length_append]
      have : (packHeader k.length 0 1 ++ k).length = 9 + k.length := by simp
      omega
  · intro h
    rw [activeContent_set, rotate_reset s _ _ hnd haf h, List.nil_append]

/-- C4 counterexample: the claim allows operations on other keys between
`set(k, v)` and `get(k)` (it excludes only an intervening `delete(k)`), but a
`set` of another key that triggers a rotation breaks the round trip: after
`set [99] [55]; set [100] [66]` on a 15-byte bound, `get [99]` returns `[66]`,
not `[55]`. -/
theorem roundtrip_rotation_cex :
    get (set (set (openFresh 15) [99] [55]) [100] [66]) [99] = .found [66] ∧
    GetResult.found [66] ≠ GetResult.found [55] := by
  decide

/-- C4 (amended): `set(k, v)` followed by `get(k)` returns exactly `v`,
regardless of the prior state (so regardless of earlier sets of `k`: last
write wins), and regardless of intervening operations on other keys provided
none of them triggers a segment rotation. -/
theorem roundtrip_no_rotation (s : KV) (k v : List Nat) (ops : List Op)
    (hk : k.length < 4294967296) (hv : v.length < 4294967296)
    (hops : ∀ op ∈ ops, op.key ≠ k)
    (hnr : noRotate (set s k v) ops = true) :
    get (run (set s k v) ops) k = .found v := by
  have hbase_f : alookup (set s k v).files (set s k v).activeFilename =
      some (activeContent (rotateIfNeeded s k.length v.length) ++
        (packHeader k.length v.length 0 ++ (k ++ (v ++ [])))) := by
    rw [activeFilename_set, files_set, ← rotate_activeFilename s k.length v.length,
      alookup_ainsert_self]
    simp [List.append_assoc]
  have hbase_i : alookup (set s k v).index k =
      some ⟨(set s k v).activeFilename,
        (activeContent (rotateIfNeeded s k.length v.length)).length,
        9 + k.length + v.length⟩ := by
    rw [activeFilename_set, index_set, alookup_ainsert_self]
  obtain ⟨rest2, hf2, hi2, _⟩ := run_preserves_entry ops (set s k v) k v
    (activeContent (rotateIfNeeded s k.length v.length)) [] hops hnr hbase_f hbase_i
  exact get_of_entry _ k v _ rest2 hk hv hi2 hf2

/-- Witness for C4: `set [97] [49]`, then a rotation-free `set` of another
key, then `get [97]`. -/
theorem roundtrip_no_rotation_witness :
    noRotate (set (openFresh 100) [97] [49]) [Op.setOp [98] [50]] = true ∧
    get (run (set (openFresh 100) [97] [49]) [Op.setOp [98] [50]]) [97] =
      .found [49] :=
  ⟨by decide, roundtrip_no_rotation (openFresh 100) [97] [49] [Op.setOp [98] [50]]
    (by decide) (by decide) (by decide) (by decide)⟩

/-- Witness for C8 at a concrete store. -/
theorem active_size_bound_witness :
    (sDelW.files.map Prod.fst).Nodup ∧
    ((activeContent (set sDelW [98] [50, 51])).length ≤
        sDelW.maxActiveSize + (9 + [98].length + [50, 51].length) ∧
      (activeContent (delete sDelW [98])).length ≤
        sDelW.maxActiveSize + (9 + [98].length) ∧
      (sDelW.maxActiveSize <
          (activeContent sDelW).length + 9 + [98].length + [50, 51].length →
        activeContent (set sDelW [98] [50, 51]) =
          packHeader [98].length [50, 51].length 0 ++ [98] ++ [50, 51])) :=
  ⟨by decide, active_size_bound sDelW [98] [50, 51] (by decide) rfl⟩

/-- C10 counterexample: the claim includes "after an index rebuild at
reopen", universally.  In a reachable state whose sealed segments hold an
older tombstone for `k` (here built purely from engine operations:
`delete [97]`, a rotating `set [98] ...`, then the rotating `set [97] []`
itself), the reopen replays `active.log` first and the sealed tombstone for
`[97]` afterwards, so `get [97]` after reopen is not-found even though the
empty-value `set` was the last operation and in-session `get` returned the
present empty value. -/
theorem empty_value_reopen_cex :
    get (set (set (delete (openFresh 15) [97]) [98] [50, 51, 52]) [97] []) [97] =
      .found [] ∧
    get (reopen (set (set (delete (openFresh 15) [97]) [98] [50, 51, 52]) [97] []))
      [97] = .notFound := by
  decide

/-- C10 (amended): `set(k, v)` with empty `v` appends a live record with
value length 0 and tombstone flag 0 (first conjunct: the frame is
`packHeader |k| 0 0 ++ k`), a subsequent `get(k)` returns the present empty
byte string — distinct from not-found — and the same holds after an index
rebuild at reopen provided the active segment is the only segment on disk,
its prior contents are well-formed records, and the `set` does not trigger a
rotation. -/
theorem empty_value_spec (s : KV) (k : List Nat) (recs : List Rec)
    (hk : k.length < 4294967296)
    (hwf : wfRecs recs)
    (hfiles : s.files = [(FName.active, encodeRecs recs)])
    (haf : s.activeFilename = FName.active)
    (hsz : (encodeRecs recs).length + (9 + k.length) ≤ s.maxActiveSize) :
    activeContent (set s k []) = encodeRecs recs ++ (packHeader k.length 0 0 ++ k) ∧
    get (set s k []) k = .found [] ∧
    get (reopen (set s k [])) k = .found [] ∧
    GetResult.found [] ≠ GetResult.notFound := by
  have hac : activeContent s = encodeRecs recs := by
    rw [activeContent, haf, hfiles]
    simp [alookup]
  have hnrot : rotateIfNeeded s k.length 0 = s := by
    apply rotate_of_le
    rw [hac]
    omega
  have hwf2 : wfRecs (recs ++ [⟨k, [], 0⟩]) := by
    intro r hr
    rcases List.mem_append.mp hr with hr | hr
    · exact hwf r hr
    · rcases List.mem_singleton.mp hr with rfl
      refine ⟨hk, ?_, ?_⟩
      · show (List.length ([] : List Nat)) < 4294967296
        decide
      · show (0 : Nat) < 256
        decide
  have hfiles1 : (set s k []).files =
      [(FName.active, encodeRecs (recs ++ [⟨k, [], 0⟩]))] := by
    rw [files_set]
    simp only [List.length_nil]
    rw [hnrot, haf, hac, hfiles]
    simp [ainsert, encodeRecs_append, encodeRecs, encodeRec, packHeader,
      List.append_assoc]
  have h1 : activeContent (set s k []) =
      encodeRecs recs ++ (packHeader k.length 0 0 ++ k) := by
    rw [activeContent_set]
    simp only [List.length_nil]
    rw [hnrot, hac]
    simp [List.append_assoc]
  have hidx1 : alookup (set s k []).index k =
      some ⟨(set s k []).activeFilename, (encodeRecs recs).length,
        9 + k.length + List.length ([] : List Nat)⟩ := by
    rw [activeFilename_set, index_set]
    simp only [List.length_nil]
    rw [hnrot, hac, alookup_ainsert_self]
  have hfile1 : alookup (set s k []).files (set s k []).activeFilename =
      some (encodeRecs recs ++
        (packHeader k.length (List.length ([] : List Nat)) 0 ++ (k ++ ([] ++ [])))) := by
    rw [activeFilename_set, files_set]
    simp only [List.length_nil]
    rw [hnrot, alookup_ainsert_self, hac]
    simp [List.append_assoc]
  have hro : reopen (set s k []) =
      ⟨(set s k []).files, rebuildIndex (set s k []).files, FName.active,
        (set s k []).maxActiveSize⟩ := by
    rw [reopen, close]
    exact openStore_of_active _ _ (encodeRecs (recs ++ [⟨k, [], 0⟩]))
      (by rw [hfiles1]; simp [alookup])
  have haf2 : (reopen (set s k [])).activeFilename = FName.active := by
    rw [hro]
  have hidx2 : alookup (reopen (set s k [])).index k =
      some ⟨FName.active, (encodeRecs recs).length,
        9 + k.length + List.length ([] : List Nat)⟩ := by
    rw [hro]
    show alookup (rebuildIndex (set s k []).files) k = _
    rw [hfiles1, rebuildIndex_single, replayFile_encodeRecs _ _ hwf2,
      replayRecs_append]
    simp only [replayRecs, applyRec]
    rw [if_neg (by simp)]
    simp only [Rec.size]
    rw [alookup_ainsert_self]
    simp
  have hfile2 : alookup (reopen (set s k [])).files
      (reopen (set s k [])).activeFilename =
      some (encodeRecs recs ++
        (packHeader k.length (List.length ([] : List Nat)) 0 ++ (k ++ ([] ++ [])))) := by
    rw [hro]
    show alookup (set s k []).files FName.active = _
    rw [hfiles1]
    simp [alookup, encodeRecs_append, encodeRecs, encodeRec, List.append_assoc]
  refine ⟨h1, ?_, ?_, by simp⟩
  · exact get_of_entry _ k [] (encodeRecs recs) [] hk (by simp) hidx1 hfile1
  · refine get_of_entry _ k [] (encodeRecs recs) [] hk (by simp) ?_ hfile2
    rw [haf2]
    exact hidx2

/-- Witness for C10: an empty-value `set` of a fresh key on a concrete
well-formed single-segment store. -/
theorem empty_value_witness :
    wfRecs recsW ∧
    (activeContent (set sEmptyW [98] []) =
        encodeRecs recsW ++ (packHeader [98].length 0 0 ++ [98]) ∧
      get (set sEmptyW [98] []) [98] = .found [] ∧
      get (reopen (set sEmptyW [98] [])) [98] = .found [] ∧
      GetResult.found [] ≠ GetResult.notFound) := by
  have hwf : wfRecs recsW := by
    intro r hr
    rcases List.mem_singleton.mp hr with rfl
    exact ⟨by decide, by decide, by decide⟩
  exact ⟨hwf, empty_value_spec sEmptyW [98] recsW (by decide) hwf rfl rfl (by decide)⟩

/-- C9: with every index entry pointing at a live (tombstone byte 0) on-disk
record, `compact`'s read-back loop — whose `assert tomb == 0` aborts the
whole operation — completes (first conjunct); and whenever some indexed
location decodes to a tombstone, `compact` aborts and produces no new state
(second conjunct). -/
theorem compact_assert_spec (s : KV) :
    ((∀ p ∈ s.index, entryLiveB s.files p.2 = true) → (compact s).isSome = true) ∧
    (∀ p ∈ s.index, entryTombB s.files p.2 = true → compact s = none) := by
  constructor
  · intro hlive
    have htrans : ∀ p ∈ s.index,
        entryLiveB (ainsert s.files (nextSegmentName s.files) []) p.2 = true := by
      intro p hp
      have h := hlive p hp
      cases hf : alookup s.files p.2.fname with
      | none => simp [entryLiveB, hf] at h
      | some f =>
        simp only [entryLiveB, hf] at h
        simp only [entryLiveB, alookup_fs0 hf]
        exact h
    have h := compactLoop_of_live (ainsert s.files (nextSegmentName s.files) [])
      (nextSegmentName s.files) s.index [] [] htrans
    simp only [compact]
    cases hcl : compactLoop (ainsert s.files (nextSegmentName s.files) [])
        (nextSegmentName s.files) s.index [] [] with
    | none =>
      rw [hcl] at h
      exact absurd h (by simp)
    | some out =>
      simp [hcl]
  · intro p hp htomb
    cases hc : compact s with
    | none => rfl
    | some s2 =>
      exfalso
      simp only [compact] at hc
      cases hcl : compactLoop (ainsert s.files (nextSegmentName s.files) [])
          (nextSegmentName s.files) s.index [] [] with
      | none =>
        rw [hcl] at hc
        simp at hc
      | some out =>
        have h3 := (compactLoop_sound _ _ s.index [] [] out hcl).2.2 p hp
        cases hf : alookup s.files p.2.fname with
        | none => simp [entryTombB, hf] at htomb
        | some f =>
          simp only [entryTombB, hf, Bool.and_eq_true, decide_eq_true_eq] at htomb
          rw [readEntry_of_header (alookup_fs0 hf) htomb.1] at h3
          simp only [Option.some.injEq, Prod.mk.injEq] at h3
          omega

/-- Witness for C9: a healthy one-key store compacts successfully; a corrupt
store whose single index entry points at a tombstone record aborts. -/
theorem compact_assert_witness :
    (compact sDelW).isSome = true ∧ compact sTombW = none :=
  ⟨(compact_assert_spec sDelW).1 (by decide),
   (compact_assert_spec sTombW).2 ([97], ⟨FName.active, 0, 10⟩) (by decide)
     (by decide)⟩

/-- C5: when `compact` completes (`hc`), `get` is unchanged for every key;
the directory then holds exactly the new sealed segment — a well-formed list
of one live record per previously indexed key, in index order — plus an
empty active file; and every rebuilt index entry points into the new
segment.  `hnd` is `dict` key uniqueness, `hkl` bounds key lengths by the
32-bit length field, and `hbytes` says the directory holds genuine bytes. -/
theorem compact_spec (s s2 : KV)
    (hnd : (s.index.map Prod.fst).Nodup)
    (hkl : ∀ p ∈ s.index, (Prod.fst p).length < 4294967296)
    (hbytes : ∀ q ∈ s.files, ∀ b ∈ Prod.snd q, b < 256)
    (hc : compact s = some s2) :
    (∀ k, get s2 k = get s k) ∧
    (∃ recs, s2.files =
        [(nextSegmentName s.files, encodeRecs recs), (FName.active, [])] ∧
      recs.map Rec.key = s.index.map Prod.fst ∧
      ∀ r ∈ recs, r.tomb = 0) ∧
    (∀ k e, alookup s2.index k = some e → e.fname = nextSegmentName s.files) ∧
    alookup s2.files FName.active = some [] := by
  obtain ⟨content, newIdx, hcl, hs2⟩ := compact_elim hc
  obtain ⟨h1, h2, h3⟩ := compactLoop_sound
    (ainsert s.files (nextSegmentName s.files) []) (nextSegmentName s.files)
    s.index [] [] (content, newIdx) hcl
  simp only [List.nil_append, List.length_nil] at h1 h2
  have hbytes0 : ∀ q ∈ ainsert s.files (nextSegmentName s.files) [],
      ∀ b ∈ Prod.snd q, b < 256 := by
    intro q hq b hb
    rcases mem_ainsert s.files (nextSegmentName s.files) [] q hq with hq2 | hq2
    · exact hbytes q hq2 b hb
    · rw [hq2] at hb
      simp at hb
  refine ⟨?_, ?_, ?_, ?_⟩
  · intro k
    cases hik : alookup s.index k with
    | none =>
      have hknotin : k ∉ s.index.map Prod.fst := by
        intro hmem
        obtain ⟨p, hp, hpk⟩ := List.mem_map.mp hmem
        exact (alookup_none_iff s.index k).mp hik p hp hpk
      have hlook2 : alookup s2.index k = none := by
        rw [hs2]
        show alookup newIdx k = none
        rw [h2, buildIdx_not_mem _ _ _ _ _ (by rw [liveRecs_keys]; exact hknotin)]
        rfl
      simp [get, hik, hlook2]
    | some e =>
      have hmem : (k, e) ∈ s.index := mem_of_alookup hik
      have hre : readEntry (ainsert s.files (nextSegmentName s.files) []) e =
          some (0, entryVal (ainsert s.files (nextSegmentName s.files) []) e) :=
        h3 (k, e) hmem
      obtain ⟨f, hf0, hlf, htomb, _⟩ := readEntry_some hre
      have hfname : e.fname ≠ nextSegmentName s.files := by
        intro he
        rw [he, alookup_fs0_new s.files] at hf0
        simp only [Option.some.injEq] at hf0
        rw [← hf0] at hlf
        simp at hlf
      have hf : alookup s.files e.fname = some f := by
        rw [alookup_ainsert_ne _ _ _ _ (Ne.symm hfname)] at hf0
        exact hf0
      have hklk : k.length < 4294967296 := hkl (k, e) hmem
      have hvlt : (entryVal (ainsert s.files (nextSegmentName s.files) []) e).length <
          4294967296 := entryVal_length_lt _ e hbytes0
      have hgs : get s k =
          .found (entryVal (ainsert s.files (nextSegmentName s.files) []) e) := by
        simp only [get, hik, hf]
        rw [if_neg (by omega)]
        rw [← htomb]
        rw [if_neg (by decide)]
        simp only [entryVal, hf0]
      obtain ⟨A, B, hsplit, hA⟩ := alookup_some_split hik
      have hkB : k ∉ B.map Prod.fst := by
        have h := hnd
        rw [hsplit] at h
        simp only [List.map_append, List.map_cons] at h
        have h4 := (List.nodup_append.mp h).2.1
        exact (List.nodup_cons.mp h4).1
      have hlr : liveRecs (ainsert s.files (nextSegmentName s.files) []) s.index =
          liveRecs (ainsert s.files (nextSegmentName s.files) []) A ++
            ⟨k, entryVal (ainsert s.files (nextSegmentName s.files) []) e, 0⟩ ::
              liveRecs (ainsert s.files (nextSegmentName s.files) []) B := by
        rw [hsplit]
        simp [liveRecs]
      have hidx2 : alookup s2.index k = some ⟨nextSegmentName s.files,
          (encodeRecs (liveRecs (ainsert s.files (nextSegmentName s.files) []) A)).length,
          9 + k.length +
            (entryVal (ainsert s.files (nextSegmentName s.files) []) e).length⟩ := by
        rw [hs2]
        show alookup newIdx k = _
        rw [h2, hlr]
        have hb := buildIdx_found (nextSegmentName s.files)
          (liveRecs (ainsert s.files (nextSegmentName s.files) []) A)
          ⟨k, entryVal (ainsert s.files (nextSegmentName s.files) []) e, 0⟩
          (liveRecs (ainsert s.files (nextSegmentName s.files) []) B) [] 0
          (by rw [liveRecs_keys]; exact hkB)
        simpa using hb
      have hfile2 : alookup s2.files (nextSegmentName s.files) = some content := by
        rw [hs2]
        show alookup [(nextSegmentName s.files, content), (FName.active, [])]
          (nextSegmentName s.files) = some content
        simp [alookup]
      have hcontent : content =
          encodeRecs (liveRecs (ainsert s.files (nextSegmentName s.files) []) A) ++
            (packHeader k.length
              (entryVal (ainsert s.files (nextSegmentName s.files) []) e).length 0 ++
              (k ++ (entryVal (ainsert s.files (nextSegmentName s.files) []) e ++
                encodeRecs (liveRecs (ainsert s.files (nextSegmentName s.files) []) B)))) := by
        rw [h1, hlr, encodeRecs_append]
        simp [encodeRecs, encodeRec, List.append_assoc]
      have hgs2 : get s2 k =
          .found (entryVal (ainsert s.files (nextSegmentName s.files) []) e) := by
        simp only [get, hidx2, hfile2]
        rw [hcontent]
        rw [if_neg (by simp)]
        rw [readBytes_frame_header, unpack_packHeader_keyP _ _ _ hklk,
          unpack_packHeader_valP _ _ _ hvlt, getD8_packHeaderP]
        rw [if_neg (by decide)]
        rw [readBytes_frame_val]
      rw [hgs, hgs2]
  · refine ⟨liveRecs (ainsert s.files (nextSegmentName s.files) []) s.index, ?_, ?_, ?_⟩
    · rw [hs2, h1]
    · exact liveRecs_keys _ _
    · intro r hr
      simp only [liveRecs, List.mem_map] at hr
      obtain ⟨p, _, hpr⟩ := hr
      rw [← hpr]
  · intro k e he
    rw [hs2] at he
    have he2 : alookup newIdx k = some e := he
    rw [h2] at he2
    rcases buildIdx_fname _ _ _ _ _ _ he2 with h4 | h4
    · exact h4
    · exact absurd h4 (by simp [alookup])
  · rw [hs2]
    show alookup [(nextSegmentName s.files, content), (FName.active, [])]
      FName.active = some []
    simp [alookup, nextSegmentName]

/-- Witness for C5: `set a; set b; delete a`, then `compact`. -/
theorem compact_spec_witness :
    (sC5pre.index.map Prod.fst).Nodup ∧
    ((∀ k, get sC5post k = get sC5pre k) ∧
      (∃ recs, sC5post.files =
          [(nextSegmentName sC5pre.files, encodeRecs recs), (FName.active, [])] ∧
        recs.map Rec.key = sC5pre.index.map Prod.fst ∧
        ∀ r ∈ recs, r.tomb = 0) ∧
      (∀ k e, alookup sC5post.index k = some e →
        e.fname = nextSegmentName sC5pre.files) ∧
      alookup sC5post.files FName.active = some []) :=
  ⟨by decide, compact_spec sC5pre sC5post (by decide) (by decide) (by decide)
    (by decide)⟩

end LogKV
